import Mathlib

/-!
Shallow embedding of the avro-rs core under verification:
`src/decimal.rs` (Decimal cross-scale equality and sign-extended byte
conversion) and `src/writer.rs` (container writer: header emission, block
framing, codec pipeline).  BigInt values are embedded as `Int`, machine
integers as `Nat` with explicit reduction modulo `2 ^ 64` where the Rust
code performs fixed-width arithmetic, byte buffers as `List UInt8`,
fallible operations as `Except`.
-/

namespace AvroRS

/-! ## Decimal (src/decimal.rs) -/

/-- The `Decimal` struct of src/decimal.rs: unscaled arbitrary-precision
`value`, `precision` and `scale` metadata. -/
structure Decimal where
  value : Int
  precision : Nat
  scale : Nat
deriving DecidableEq, Repr

/-- The multiplier `10u64.pow(d)` computed by `PartialEq for Decimal`:
a fixed-width `u64` power, i.e. `10 ^ d` reduced modulo `2 ^ 64`
(release-mode wrapping semantics; debug builds panic instead at the first
overflowing multiplication, at `d ≥ 20` either way). -/
def pow10u64 (d : Nat) : Nat := 10 ^ d % 2 ^ 64

/-- `impl PartialEq for Decimal` (src/decimal.rs lines 12-24), with the
body's `rhs` read as the parameter `other`: equal scales compare the
unscaled values directly; otherwise the value with the smaller scale is
multiplied by `10u64.pow(scale difference)` before comparing. -/
def decimalEq (a other : Decimal) : Bool :=
  if a.scale = other.scale then
    a.value == other.value
  else if other.scale < a.scale then
    a.value == other.value * (pow10u64 (a.scale - other.scale) : Int)
  else
    a.value * (pow10u64 (other.scale - a.scale) : Int) == other.value

/-- The spec's cross-scale decimal equality: multiply the unscaled value of
the operand with the smaller scale by ten to the power of the scale
difference, with exact arbitrary-precision arithmetic, and compare. -/
def decimalEqSpec (a b : Decimal) : Bool :=
  if b.scale ≤ a.scale then
    a.value == b.value * (10 : Int) ^ (a.scale - b.scale)
  else
    a.value * (10 : Int) ^ (b.scale - a.scale) == b.value

/-! ### Byte-level representation (num-bigint's `to_signed_bytes_be`) -/

/-- Big-endian base-256 digits: exactly `n` bytes holding `x % 256 ^ n`,
most significant byte first. -/
def natToBEPad : Nat → Nat → List UInt8
  | _, 0 => []
  | x, n + 1 => natToBEPad (x / 256) n ++ [UInt8.ofNat (x % 256)]

/-- Decode a big-endian byte list as an unsigned natural number. -/
def bytesToNat (bs : List UInt8) : Nat :=
  bs.foldl (fun acc b => acc * 256 + b.toNat) 0

/-- Fuel-driven computation of the byte length of a magnitude's minimal
big-endian representation (`BigUint::to_bytes_be().len()`, with one byte
for zero). -/
def magLenAux : Nat → Nat → Nat
  | 0, _ => 1
  | fuel + 1, m => if m < 256 then 1 else magLenAux fuel (m / 256) + 1

/-- Byte length of the minimal big-endian magnitude representation. -/
def magLen (m : Nat) : Nat := magLenAux m m

/-- `BigInt::to_signed_bytes_be` of num-bigint, as called at
src/decimal.rs line 30: the magnitude's minimal big-endian bytes, extended
by a leading zero byte when the top bit is in use (except for the exact
negative power-of-two boundary), then replaced by the two's complement of
the buffer when the value is negative. -/
def toSignedBytesBE (v : Int) : List UInt8 :=
  let m := v.natAbs
  let mag := natToBEPad m (magLen m)
  let first := (mag.headD 0).toNat
  let bytes :=
    if 0x7f < first ∧ ¬(first = 0x80 ∧ mag.tail.all (fun b => b == 0) ∧ v < 0)
    then (0 : UInt8) :: mag else mag
  if v < 0 then natToBEPad (2 ^ (8 * bytes.length) - m) bytes.length else bytes

/-- The error type carried by `AvroResult` for the sign-extension failure
(`Error::SignExtend { requested, needed }`). -/
inductive AvroError where
  | SignExtend (requested : Nat) (needed : Nat)
deriving DecidableEq, Repr

/-- `Decimal::to_sign_extended_bytes_with_len` (src/decimal.rs lines
27-38): fill `len` bytes with the sign byte, then overwrite the trailing
bytes with the minimal signed representation; `checked_sub` failure
becomes `Error::SignExtend`. -/
def to_sign_extended_bytes_with_len (d : Decimal) (len : Nat) :
    Except AvroError (List UInt8) :=
  let sign_byte : UInt8 := 0xFF * (if d.value < 0 then 1 else 0)
  let raw_bytes := toSignedBytesBE d.value
  let num_raw_bytes := raw_bytes.length
  if num_raw_bytes ≤ len then
    .ok (List.replicate (len - num_raw_bytes) sign_byte ++ raw_bytes)
  else
    .error (.SignExtend len num_raw_bytes)

/-- `v` is representable as an `n`-byte big-endian two's-complement
integer (the spec's "requested length at least the minimal
two's-complement byte length"): `n` is positive and `v` lies in
`[-2 ^ (8 n - 1), 2 ^ (8 n - 1))`. -/
def fitsInBytes (v : Int) (n : Nat) : Prop :=
  0 < n ∧ -((2 : Int) ^ (8 * n - 1)) ≤ v ∧ v < (2 : Int) ^ (8 * n - 1)

instance (v : Int) (n : Nat) : Decidable (fitsInBytes v n) := by
  unfold fitsInBytes; infer_instance

/-- Decode a big-endian byte list as a two's-complement signed integer. -/
def twosDecode (bs : List UInt8) : Int :=
  let u := bytesToNat bs
  if u < 2 ^ (8 * bs.length - 1) then (u : Int)
  else (u : Int) - (2 : Int) ^ (8 * bs.length)

/-! ## Container writer (src/writer.rs) -/

/-- The `Codec` enum of src/writer.rs, built without the optional
`snappy` feature. -/
inductive Codec where
  | Null
  | Deflate
deriving DecidableEq, Repr

/-- Modelled from the spec: the external collaborators of src/writer.rs
that are not under src/ — the schema-driven value encoder contract
("given a schema and a value, produce its encoded byte stream or signal a
mismatch", with the writer's schema baked in), the `Schema::Long`
variable-length signed integer encoding used for counts and lengths, the
encoded bytes of the header's metadata map (`avro.schema`, `avro.codec`),
and the single-shot deflate compressor. -/
structure EncoderEnv (V : Type) where
  encode : V → Option (List UInt8)
  encodeLong : Nat → List UInt8
  metaBytes : List UInt8
  deflate : List UInt8 → List UInt8

/-- The codec pipeline of `Writer::extend` (src/writer.rs lines 106-118):
`Codec::Null` returns the block bytes unchanged, `Codec::Deflate`
compresses them in one pass. -/
def codecCompress (env : EncoderEnv V) : Codec → List UInt8 → List UInt8
  | .Null, stream => stream
  | .Deflate, stream => env.deflate stream

/-- The 4-byte magic written by `Writer::header`:
ASCII 'O', 'b', 'j', then byte 0x01 (a `Schema::Fixed` of size 4 encodes
as its raw bytes). -/
def magicBytes : List UInt8 := [0x4F, 0x62, 0x6A, 0x01]

/-- The `Writer` struct of src/writer.rs: selected codec, 16-byte sync
marker fixed at construction, the header-written flag, and the owned
output sink (the schema reference lives inside `EncoderEnv.encode` and
`EncoderEnv.metaBytes`). -/
structure Writer where
  codec : Codec
  marker : List UInt8
  has_header : Bool
  sink : List UInt8
deriving DecidableEq, Repr

/-- A successful `self.writer.write(bytes)` on the owned sink: appends the
bytes and returns how many were written. -/
def writeBytes (w : Writer) (bs : List UInt8) : Writer × Nat :=
  ({ w with sink := w.sink ++ bs }, bs.length)

/-- The byte sequence emitted by `Writer::header`: magic, encoded
metadata map, sync marker. -/
def headerBytes (env : EncoderEnv V) (marker : List UInt8) : List UInt8 :=
  magicBytes ++ env.metaBytes ++ marker

/-- `Writer::header` (src/writer.rs lines 63-73): writes the magic bytes,
the metadata map and the marker, returning the total byte count.  It does
not touch `has_header`. -/
def Writer.header (env : EncoderEnv V) (w : Writer) : Writer × Nat :=
  let (w1, n1) := writeBytes w magicBytes
  let (w2, n2) := writeBytes w1 env.metaBytes
  let (w3, n3) := writeBytes w2 w2.marker
  (w3, n1 + n2 + n3)

/-- The writer-side error taxonomy relevant to `Writer::extend` on an
in-memory sink: the schema-mismatch failure raised when a value fails to
encode. -/
inductive WriteError where
  | schemaMismatch
deriving DecidableEq, Repr

/-- The `collect::<Option<Vec<_>>>()` step of `Writer::extend`
(src/writer.rs lines 96-99): encode each value in order, short-circuiting
to `none` at the first mismatch. -/
def collectEncoded (env : EncoderEnv V) : List V → Option (List (List UInt8))
  | [] => some []
  | v :: vs =>
    match env.encode v with
    | none => none
    | some s =>
      match collectEncoded env vs with
      | none => none
      | some ss => some (s :: ss)

/-- The block written after a successful `Writer::extend`: record count,
payload byte length (both through the `Schema::Long` encoding), the
payload bytes, then the sync marker. -/
def blockBytes (env : EncoderEnv V) (marker : List UInt8) (count : Nat)
    (payload : List UInt8) : List UInt8 :=
  env.encodeLong count ++ env.encodeLong payload.length ++ payload ++ marker

/-- `Writer::extend` (src/writer.rs lines 92-129): encode every value
(failing the whole call on the first mismatch, before any byte reaches
the sink), concatenate the streams while counting them, compress the
concatenation as one unit, write the header first when `has_header` is
still false (discarding its byte count) and set the flag, then write
count, compressed length, payload and marker, returning the sum of those
four byte counts. -/
def Writer.extend (env : EncoderEnv V) (w : Writer) (values : List V) :
    Writer × Except WriteError Nat :=
  match collectEncoded env values with
  | none => (w, .error .schemaMismatch)
  | some streams =>
    let acc := streams.foldl (fun (p : Nat × List UInt8) s => (p.1 + 1, p.2 ++ s)) (0, [])
    let num_values := acc.1
    let stream := codecCompress env w.codec acc.2
    let w :=
      if !w.has_header then
        let (w1, _) := Writer.header env w
        { w1 with has_header := true }
      else w
    let (w1, n1) := writeBytes w (env.encodeLong num_values)
    let (w2, n2) := writeBytes w1 (env.encodeLong stream.length)
    let (w3, n3) := writeBytes w2 stream
    let (w4, n4) := writeBytes w3 w3.marker
    (w4, .ok (n1 + n2 + n3 + n4))

/-- `Writer::append` (src/writer.rs lines 75-77): extend with the
one-element sequence. -/
def Writer.append (env : EncoderEnv V) (w : Writer) (v : V) :
    Writer × Except WriteError Nat :=
  Writer.extend env w [v]

/-- A sequence of `extend` calls on one writer, each call running on the
writer state the previous call left behind. -/
def runExtends (env : EncoderEnv V) (w : Writer) (batches : List (List V)) : Writer :=
  batches.foldl (fun w vs => (Writer.extend env w vs).fst) w

/-- The compressed payload a successful `extend` call on codec `c` writes
for the value sequence `vs`. -/
def extendPayload (env : EncoderEnv V) (c : Codec) (vs : List V) : List UInt8 :=
  codecCompress env c ((collectEncoded env vs).getD []).flatten

/-! ## Concrete instances used by witnesses and counterexamples -/

/-- A concrete encoder environment over unit values: each value encodes
to the single byte 0x2A, `Schema::Long` encodes a small count as one
byte, the metadata map encodes to one byte, deflate is run as the
identity. -/
def env1 : EncoderEnv Unit where
  encode := fun _ => some [0x2A]
  encodeLong := fun n => [UInt8.ofNat n]
  metaBytes := [0xAA]
  deflate := fun s => s

/-- A degenerate encoder environment over unit values with empty
encodings, so that concrete sinks stay small. -/
def env0 : EncoderEnv Unit where
  encode := fun _ => some []
  encodeLong := fun _ => []
  metaBytes := []
  deflate := fun s => s

/-- An encoder environment whose values never match the schema. -/
def envBad : EncoderEnv Unit where
  encode := fun _ => none
  encodeLong := fun n => [UInt8.ofNat n]
  metaBytes := []
  deflate := fun s => s

/-- A freshly constructed writer (null codec, 16-byte marker, no header
written, empty sink). -/
def wInit : Writer where
  codec := .Null
  marker := List.replicate 16 0xAB
  has_header := false
  sink := []

/-- A freshly constructed writer with an empty marker and empty sink, for
minimal concrete runs. -/
def w0 : Writer where
  codec := .Null
  marker := []
  has_header := false
  sink := []

/-! ## Writer lemmas -/

theorem foldl_count_append (streams : List (List UInt8)) (k : Nat) (init : List UInt8) :
    streams.foldl (fun (p : Nat × List UInt8) s => (p.1 + 1, p.2 ++ s)) (k, init)
      = (k + streams.length, init ++ streams.flatten) := by
  induction streams generalizing k init with
  | nil => simp
  | cons s rest ih =>
    simp only [List.foldl_cons, ih, List.flatten_cons, List.length_cons, Prod.mk.injEq]
    exact ⟨by omega, by simp [List.append_assoc]⟩

theorem extend_eq_of_collect (env : EncoderEnv V) (w : Writer) (vs : List V)
    (streams : List (List UInt8)) (h : collectEncoded env vs = some streams) :
    Writer.extend env w vs =
      ({ codec := w.codec, marker := w.marker, has_header := true,
         sink := w.sink ++ (if w.has_header then [] else headerBytes env w.marker) ++
           blockBytes env w.marker streams.length
             (codecCompress env w.codec streams.flatten) },
       .ok (blockBytes env w.marker streams.length
             (codecCompress env w.codec streams.flatten)).length) := by
  cases hw : w.has_header <;>
    simp [Writer.extend, h, foldl_count_append, writeBytes, Writer.header,
      blockBytes, headerBytes, hw, List.append_assoc] <;> try omega

theorem extend_none_eq (env : EncoderEnv V) (w : Writer) (vs : List V)
    (h : collectEncoded env vs = none) :
    Writer.extend env w vs = (w, .error .schemaMismatch) := by
  unfold Writer.extend
  rw [h]

theorem collectEncoded_none_of_mem (env : EncoderEnv V) (vs : List V) (v : V)
    (hv : v ∈ vs) (he : env.encode v = none) :
    collectEncoded env vs = none := by
  induction vs with
  | nil => cases hv
  | cons x rest ih =>
    rcases List.mem_cons.mp hv with h | h
    · subst h; simp [collectEncoded, he]
    · unfold collectEncoded
      cases env.encode x with
      | none => rfl
      | some s => rw [ih h]

theorem collectEncoded_length (env : EncoderEnv V) (vs : List V)
    (streams : List (List UInt8)) (h : collectEncoded env vs = some streams) :
    streams.length = vs.length := by
  induction vs generalizing streams with
  | nil => simp [collectEncoded] at h; simp [← h]
  | cons x rest ih =>
    unfold collectEncoded at h
    cases hx : env.encode x with
    | none => rw [hx] at h; cases h
    | some s =>
      rw [hx] at h
      cases hr : collectEncoded env rest with
      | none => rw [hr] at h; cases h
      | some ss =>
        rw [hr] at h
        cases h
        simp [ih ss hr]

theorem extend_ok_collect (env : EncoderEnv V) (w w' : Writer) (vs : List V) (n : Nat)
    (h : Writer.extend env w vs = (w', .ok n)) :
    ∃ streams, collectEncoded env vs = some streams := by
  cases hc : collectEncoded env vs with
  | none =>
    rw [extend_none_eq env w vs hc] at h
    exact absurd (congrArg Prod.snd h) (by simp)
  | some streams => exact ⟨streams, rfl⟩

theorem runExtends_header_true (env : EncoderEnv V) (batches : List (List V)) (w : Writer)
    (hh : w.has_header = true)
    (henc : ∀ vs ∈ batches, (collectEncoded env vs).isSome) :
    runExtends env w batches =
      { codec := w.codec, marker := w.marker, has_header := true,
        sink := w.sink ++ (batches.map (fun vs =>
          blockBytes env w.marker vs.length (extendPayload env w.codec vs))).flatten } := by
  induction batches generalizing w with
  | nil => cases w; simp_all [runExtends]
  | cons b rest ih =>
    obtain ⟨streams, hc⟩ := Option.isSome_iff_exists.mp (henc b (List.mem_cons_self b rest))
    have hstep := extend_eq_of_collect env w b streams hc
    have hsink : (Writer.extend env w b).fst =
        { codec := w.codec, marker := w.marker, has_header := true,
          sink := w.sink ++ blockBytes env w.marker b.length (extendPayload env w.codec b) } := by
      rw [hstep, hh]
      simp [extendPayload, hc, collectEncoded_length env b streams hc]
    have : runExtends env w (b :: rest) = runExtends env (Writer.extend env w b).fst rest := rfl
    rw [this, hsink, ih _ rfl (fun vs hvs => henc vs (List.mem_cons_of_mem b hvs))]
    simp [List.append_assoc]

/-! ## Writer claims -/

/-- Claim C6: an extend call in which some value fails to match the
schema fails with the schema-mismatch error, and the writer — in
particular its sink, holding any earlier calls' output — is exactly what
it was immediately before the call. -/
theorem extend_schema_mismatch_no_output (env : EncoderEnv V) (w : Writer)
    (vs : List V) (v : V) (hv : v ∈ vs) (he : env.encode v = none) :
    Writer.extend env w vs = (w, .error .schemaMismatch) ∧
    (Writer.extend env w vs).fst.sink = w.sink := by
  have h := extend_none_eq env w vs (collectEncoded_none_of_mem env vs v hv he)
  exact ⟨h, by rw [h]⟩

/-- Witness for C6: a unit value that never matches the schema makes
extend fail and leaves the fresh writer untouched. -/
theorem extend_schema_mismatch_no_output_witness :
    Writer.extend envBad wInit [()] = (wInit, .error .schemaMismatch) ∧
    (Writer.extend envBad wInit [()]).fst.sink = wInit.sink :=
  extend_schema_mismatch_no_output envBad wInit [()] () (by decide) rfl

/-- Claim C7: a successful extend call appends to the sink — after the
header bytes exactly when this call is the one that emits them — the
encoded record count, the encoded compressed-payload length, the
compressed payload bytes, and the writer's marker, in that exact order
with nothing interleaved. -/
theorem extend_block_layout (env : EncoderEnv V) (w w' : Writer) (vs : List V) (n : Nat)
    (h : Writer.extend env w vs = (w', .ok n)) :
    ∃ streams, collectEncoded env vs = some streams ∧
      w'.sink = w.sink ++ (if w.has_header then [] else headerBytes env w.marker) ++
        (env.encodeLong vs.length ++
         env.encodeLong (codecCompress env w.codec streams.flatten).length ++
         codecCompress env w.codec streams.flatten ++ w.marker) := by
  obtain ⟨streams, hc⟩ := extend_ok_collect env w w' vs n h
  refine ⟨streams, hc, ?_⟩
  have he := extend_eq_of_collect env w vs streams hc
  rw [h] at he
  have hw' := congrArg Prod.fst he
  simp only at hw'
  rw [hw']
  simp [blockBytes, collectEncoded_length env vs streams hc]

/-- Witness for C7: a one-value extend on a fresh writer produces the
header, then count, length, payload and marker in order. -/
theorem extend_block_layout_witness :
    ∃ streams, collectEncoded env1 [()] = some streams ∧
      (Writer.extend env1 wInit [()]).fst.sink =
        wInit.sink ++ (if wInit.has_header then [] else headerBytes env1 wInit.marker) ++
          (env1.encodeLong ([()] : List Unit).length ++
           env1.encodeLong (codecCompress env1 wInit.codec streams.flatten).length ++
           codecCompress env1 wInit.codec streams.flatten ++ wInit.marker) :=
  extend_block_layout env1 wInit _ [()] 19 rfl

/-- Claim C2 counterexample: on a fresh writer with a one-byte metadata
encoding, one-byte long encodings and a one-byte value encoding, the
extend call writes 40 bytes (21-byte header plus 19-byte block) but
returns 19: the returned count omits the header bytes the call emitted. -/
theorem extend_count_excludes_header_cex :
    (Writer.extend env1 wInit [()]).snd = .ok 19 ∧
    (Writer.extend env1 wInit [()]).fst.sink.length = wInit.sink.length + 40 ∧
    (19 : Nat) ≠ 40 :=
  ⟨rfl, rfl, by decide⟩

/-- Claim C2 (amended): a successful extend call returns the byte count
of the block it wrote — count, length, payload and marker; when the call
is the one that emits the header, the header bytes are written to the
sink but are not included in the returned count. -/
theorem extend_returns_block_byte_count (env : EncoderEnv V) (w w' : Writer)
    (vs : List V) (n : Nat) (h : Writer.extend env w vs = (w', .ok n)) :
    ∃ payload, n = (blockBytes env w.marker vs.length payload).length ∧
      w'.sink.length = w.sink.length +
        (if w.has_header then 0 else (headerBytes env w.marker).length) + n := by
  obtain ⟨streams, hc⟩ := extend_ok_collect env w w' vs n h
  have he := extend_eq_of_collect env w vs streams hc
  rw [h] at he
  have hw' := congrArg Prod.fst he
  have hn := congrArg Prod.snd he
  simp only at hw' hn
  have hn' : n = (blockBytes env w.marker streams.length
      (codecCompress env w.codec streams.flatten)).length := Except.ok.inj hn
  refine ⟨codecCompress env w.codec streams.flatten, ?_, ?_⟩
  · rw [← collectEncoded_length env vs streams hc]
    exact hn'
  · rw [hw']
    cases hw : w.has_header <;>
      simp [hw, hn', collectEncoded_length env vs streams hc]
    omega

/-- Witness for C2 (amended): the one-value extend on a fresh writer
returns the 19-byte block count while the sink grows by the 21-byte
header plus those 19 bytes. -/
theorem extend_returns_block_byte_count_witness :
    ∃ payload, (19 : Nat) = (blockBytes env1 wInit.marker ([()] : List Unit).length payload).length ∧
      (Writer.extend env1 wInit [()]).fst.sink.length = wInit.sink.length +
        (if wInit.has_header then 0 else (headerBytes env1 wInit.marker).length) + 19 :=
  extend_returns_block_byte_count env1 wInit _ [()] 19 rfl

/-- Claim C3 counterexample: an explicit header() call leaves the
header-written flag false, so the first extend afterwards emits the
header bytes (here the 4-byte magic) a second time. -/
theorem header_does_not_set_flag_cex :
    (Writer.header env0 w0).fst.has_header = false ∧
    (Writer.extend env0 (Writer.header env0 w0).fst [()]).fst.sink =
      magicBytes ++ magicBytes :=
  ⟨rfl, rfl⟩

/-- Claim C3 (amended): the header-written flag is set only by
append/extend — it transitions false to true on the first successful
append/extend call and never resets; an explicit header() call does not
set the flag, so the first extend call after an explicit header() call
writes the header bytes again. -/
theorem header_flag_set_only_by_extend (env : EncoderEnv V) (w : Writer) (vs : List V) :
    (Writer.header env w).fst.has_header = w.has_header ∧
    (∀ w' n, Writer.extend env w vs = (w', .ok n) → w'.has_header = true) ∧
    (∀ w' e, Writer.extend env w vs = (w', .error e) → w' = w) ∧
    (w.has_header = false → ∀ w' n, Writer.extend env w vs = (w', .ok n) →
      ∃ rest, w'.sink = w.sink ++ headerBytes env w.marker ++ rest) := by
  refine ⟨rfl, ?_, ?_, ?_⟩
  · intro w' n h
    obtain ⟨streams, hc⟩ := extend_ok_collect env w w' vs n h
    have he := extend_eq_of_collect env w vs streams hc
    rw [h] at he
    have hw' := congrArg Prod.fst he
    simp only at hw'
    rw [hw']
  · intro w' e h
    cases hc : collectEncoded env vs with
    | none =>
      rw [extend_none_eq env w vs hc] at h
      exact (congrArg Prod.fst h).symm
    | some streams =>
      rw [extend_eq_of_collect env w vs streams hc] at h
      exact absurd (congrArg Prod.snd h) (by simp)
  · intro hflag w' n h
    obtain ⟨streams, hc⟩ := extend_ok_collect env w w' vs n h
    have he := extend_eq_of_collect env w vs streams hc
    rw [h] at he
    have hw' := congrArg Prod.fst he
    simp only at hw'
    refine ⟨blockBytes env w.marker streams.length
      (codecCompress env w.codec streams.flatten), ?_⟩
    rw [hw', hflag]
    simp

/-- Witness for C3 (amended): after an explicit header() call on a fresh
writer the flag is still false, and the next extend prepends the header
bytes to its block a second time. -/
theorem header_flag_set_only_by_extend_witness :
    (Writer.header env0 w0).fst.has_header = false ∧
    ∃ rest, (Writer.extend env0 (Writer.header env0 w0).fst [()]).fst.sink =
      (Writer.header env0 w0).fst.sink ++
        headerBytes env0 (Writer.header env0 w0).fst.marker ++ rest := by
  have hA := (header_flag_set_only_by_extend env0 w0 ([] : List Unit)).1
  have hB := (header_flag_set_only_by_extend env0 (Writer.header env0 w0).fst [()]).2.2.2
  exact ⟨hA.trans rfl, hB rfl _ 0 rfl⟩

/-- Claim C8: over any nonempty sequence of append/extend calls whose
values all match the schema, on a writer with a 16-byte marker and the
header not yet written, the header — magic, metadata map bytes, marker —
is emitted exactly once, by the first call, and every later byte in the
sink belongs to some call's block. -/
theorem header_emitted_once (env : EncoderEnv V) (w : Writer) (batches : List (List V))
    (hmark : w.marker.length = 16) (hflag : w.has_header = false)
    (hne : batches ≠ [])
    (henc : ∀ vs ∈ batches, (collectEncoded env vs).isSome) :
    headerBytes env w.marker = magicBytes ++ env.metaBytes ++ w.marker ∧
    w.marker.length = 16 ∧
    (runExtends env w batches).sink = w.sink ++ headerBytes env w.marker ++
      (batches.map (fun vs =>
        blockBytes env w.marker vs.length (extendPayload env w.codec vs))).flatten := by
  refine ⟨rfl, hmark, ?_⟩
  cases batches with
  | nil => exact absurd rfl hne
  | cons b rest =>
    obtain ⟨streams, hc⟩ := Option.isSome_iff_exists.mp (henc b (List.mem_cons_self b rest))
    have hstep := extend_eq_of_collect env w b streams hc
    have hsink : (Writer.extend env w b).fst =
        { codec := w.codec, marker := w.marker, has_header := true,
          sink := w.sink ++ headerBytes env w.marker ++
            blockBytes env w.marker b.length (extendPayload env w.codec b) } := by
      rw [hstep, hflag]
      simp [extendPayload, hc, collectEncoded_length env b streams hc]
    have hrun : runExtends env w (b :: rest) = runExtends env (Writer.extend env w b).fst rest := rfl
    rw [hrun, hsink, runExtends_header_true env rest _ rfl
      (fun vs hvs => henc vs (List.mem_cons_of_mem b hvs))]
    simp [List.append_assoc]

/-- Witness for C8: two consecutive one-value extend calls on a fresh
writer yield the 21-byte header followed by two 19-byte blocks. -/
theorem header_emitted_once_witness :
    (runExtends env1 wInit [[()], [()]]).sink.length = 59 := by
  have h := header_emitted_once env1 wInit [[()], [()]] (by decide) rfl (by decide) (by decide)
  rw [h.2.2]
  rfl

/-- Claim C10: extend with an empty value sequence succeeds, emitting the
header exactly when it has not been written yet, then a block whose
record count is 0 and whose payload is the selected codec's compression
of the empty byte sequence, followed by the writer's marker. -/
theorem extend_empty_values (env : EncoderEnv V) (w : Writer) :
    Writer.extend env w [] =
      ({ codec := w.codec, marker := w.marker, has_header := true,
         sink := w.sink ++ (if w.has_header then [] else headerBytes env w.marker) ++
           blockBytes env w.marker 0 (codecCompress env w.codec []) },
       .ok (blockBytes env w.marker 0 (codecCompress env w.codec [])).length) :=
  extend_eq_of_collect env w [] [] rfl

/-! ## Byte-representation lemmas -/

theorem natToBEPad_length (n : Nat) : ∀ x, (natToBEPad x n).length = n := by
  induction n with
  | zero => intro x; rfl
  | succ n ih => intro x; simp [natToBEPad, ih]

theorem toNat_ofNat256 (x : Nat) : (UInt8.ofNat x).toNat = x % 256 := rfl

theorem pow256_eq (n : Nat) : (256 : Nat) ^ n = 2 ^ (8 * n) := by
  rw [pow_mul]
  norm_num

theorem foldl_bytes (bs : List UInt8) : ∀ acc : Nat,
    bs.foldl (fun acc b => acc * 256 + b.toNat) acc
      = acc * 256 ^ bs.length + bytesToNat bs := by
  induction bs with
  | nil => intro acc; simp [bytesToNat]
  | cons b rest ih =>
    intro acc
    show rest.foldl _ (acc * 256 + b.toNat) = _
    rw [ih (acc * 256 + b.toNat)]
    have hc : bytesToNat (b :: rest) = b.toNat * 256 ^ rest.length + bytesToNat rest := by
      show rest.foldl _ (0 * 256 + b.toNat) = _
      rw [ih (0 * 256 + b.toNat)]
      ring
    rw [hc, List.length_cons, pow_succ]
    ring

theorem bytesToNat_cons (b : UInt8) (bs : List UInt8) :
    bytesToNat (b :: bs) = b.toNat * 256 ^ bs.length + bytesToNat bs := by
  show bs.foldl _ (0 * 256 + b.toNat) = _
  rw [foldl_bytes bs (0 * 256 + b.toNat)]
  ring

theorem bytesToNat_append_single (bs : List UInt8) (c : UInt8) :
    bytesToNat (bs ++ [c]) = bytesToNat bs * 256 + c.toNat := by
  show (bs ++ [c]).foldl _ 0 = _
  rw [List.foldl_append]
  rfl

theorem bytesToNat_lt (bs : List UInt8) : bytesToNat bs < 256 ^ bs.length := by
  induction bs with
  | nil => simp [bytesToNat]
  | cons b rest ih =>
    rw [bytesToNat_cons, List.length_cons, pow_succ]
    have hb : b.toNat < 256 := b.toNat_lt
    calc b.toNat * 256 ^ rest.length + bytesToNat rest
        < b.toNat * 256 ^ rest.length + 256 ^ rest.length := by omega
      _ = (b.toNat + 1) * 256 ^ rest.length := by ring
      _ ≤ 256 * 256 ^ rest.length := Nat.mul_le_mul_right _ (by omega)
      _ = 256 ^ rest.length * 256 := by ring

theorem mod_mul_decomp_low (x P : Nat) :
    (x / 256 % P) * 256 + x % 256 = x % (P * 256) := by
  obtain ⟨t, k1, k2⟩ : ∃ t, x % 256 + 256 * (x / 256 % P) + t = x ∧ x % (P * 256) + t = x := by
    refine ⟨256 * (P * (x / 256 / P)), ?_, ?_⟩
    · calc x % 256 + 256 * (x / 256 % P) + 256 * (P * (x / 256 / P))
          = x % 256 + 256 * ((x / 256 % P) + P * (x / 256 / P)) := by ring
        _ = x % 256 + 256 * (x / 256) := by rw [Nat.mod_add_div (x / 256) P]
        _ = x := Nat.mod_add_div x 256
    · have hBD : x / 256 / P = x / (P * 256) := by
        rw [Nat.div_div_eq_div_mul, mul_comm]
      rw [hBD]
      calc x % (P * 256) + 256 * (P * (x / (P * 256)))
          = x % (P * 256) + (P * 256) * (x / (P * 256)) := by ring
        _ = x := Nat.mod_add_div x (P * 256)
  omega

theorem mod_mul_decomp_high (x P : Nat) :
    (x / P % 256) * P + x % P = x % (P * 256) := by
  obtain ⟨t, k1, k2⟩ : ∃ t, x % P + P * (x / P % 256) + t = x ∧ x % (P * 256) + t = x := by
    refine ⟨P * (256 * (x / P / 256)), ?_, ?_⟩
    · calc x % P + P * (x / P % 256) + P * (256 * (x / P / 256))
          = x % P + P * ((x / P % 256) + 256 * (x / P / 256)) := by ring
        _ = x % P + P * (x / P) := by rw [Nat.mod_add_div (x / P) 256]
        _ = x := Nat.mod_add_div x P
    · have hBD : x / P / 256 = x / (P * 256) := Nat.div_div_eq_div_mul x P 256
      rw [hBD]
      calc x % (P * 256) + P * (256 * (x / (P * 256)))
          = x % (P * 256) + (P * 256) * (x / (P * 256)) := by ring
        _ = x := Nat.mod_add_div x (P * 256)
  rw [Nat.mul_comm (x / P % 256) P]
  omega

theorem bytesToNat_natToBEPad (n : Nat) : ∀ x, bytesToNat (natToBEPad x n) = x % 256 ^ n := by
  induction n with
  | zero => intro x; simp [natToBEPad, bytesToNat, Nat.mod_one]
  | succ n ih =>
    intro x
    show bytesToNat (natToBEPad (x / 256) n ++ [UInt8.ofNat (x % 256)]) = _
    rw [bytesToNat_append_single, ih (x / 256), toNat_ofNat256,
      Nat.mod_eq_of_lt (Nat.mod_lt x (by norm_num)), pow_succ]
    exact mod_mul_decomp_low x (256 ^ n)

theorem ofNat256_mod (x : Nat) : UInt8.ofNat (x % 256) = UInt8.ofNat x := by
  apply UInt8.ext
  rw [toNat_ofNat256, toNat_ofNat256]
  exact Nat.mod_eq_of_lt (Nat.mod_lt x (by norm_num))

theorem natToBEPad_succ_cons (n : Nat) : ∀ x, natToBEPad x (n + 1)
    = UInt8.ofNat (x / 256 ^ n) :: natToBEPad x n := by
  induction n with
  | zero =>
    intro x
    show natToBEPad (x / 256) 0 ++ [UInt8.ofNat (x % 256)] = _
    simp [natToBEPad, ofNat256_mod]
  | succ n ih =>
    intro x
    show natToBEPad (x / 256) (n + 1) ++ [UInt8.ofNat (x % 256)] = _
    rw [ih (x / 256), Nat.div_div_eq_div_mul]
    show _ = UInt8.ofNat (x / 256 ^ (n + 1)) :: (natToBEPad (x / 256) n ++ [UInt8.ofNat (x % 256)])
    rw [pow_succ, mul_comm (256 ^ n) 256]
    rfl

theorem natToBEPad_all_zero (n : Nat) : ∀ x,
    ((natToBEPad x n).all (fun b => b == 0) = true ↔ x % 256 ^ n = 0) := by
  induction n with
  | zero => intro x; simp [natToBEPad, Nat.mod_one]
  | succ n ih =>
    intro x
    rw [natToBEPad_succ_cons, List.all_cons]
    have hhead : (UInt8.ofNat (x / 256 ^ n) == 0) = true ↔ x / 256 ^ n % 256 = 0 := by
      constructor
      · intro h
        have := UInt8.ext_iff.mp (eq_of_beq h)
        rwa [toNat_ofNat256] at this
      · intro h
        have : UInt8.ofNat (x / 256 ^ n) = 0 := by
          apply UInt8.ext
          rw [toNat_ofNat256, h]
          rfl
        rw [this]
        rfl
    rw [Bool.and_eq_true, hhead, ih x]
    have hdecomp := mod_mul_decomp_high x (256 ^ n)
    rw [← pow_succ] at hdecomp
    have hP : 0 < 256 ^ n := Nat.pos_pow_of_pos n (by norm_num)
    constructor
    · intro ⟨h1, h2⟩
      rw [← hdecomp, h1, h2]
      simp
    · intro h
      rw [← hdecomp] at h
      constructor <;> [skip; omega]
      have := Nat.eq_zero_of_add_eq_zero_right h
      rcases Nat.mul_eq_zero.mp this with h' | h' <;> omega

theorem magLenAux_pos (fuel : Nat) : ∀ m, 0 < magLenAux fuel m := by
  cases fuel with
  | zero => intro m; exact Nat.one_pos
  | succ fuel =>
    intro m
    unfold magLenAux
    split <;> omega

theorem magLenAux_spec (fuel : Nat) : ∀ m, m ≤ fuel →
    m < 256 ^ magLenAux fuel m ∧ (1 ≤ m → 256 ^ (magLenAux fuel m - 1) ≤ m) := by
  induction fuel with
  | zero =>
    intro m hm
    have : m = 0 := by omega
    subst this
    exact ⟨by norm_num [magLenAux], by omega⟩
  | succ fuel ih =>
    intro m hm
    unfold magLenAux
    split
    · rename_i hsmall
      refine ⟨by simpa using hsmall, fun h1 => ?_⟩
      simpa using h1
    · rename_i hbig
      push_neg at hbig
      have hmpos : 0 < m := by omega
      have hrec : m / 256 ≤ fuel := by
        have : m / 256 < m := Nat.div_lt_self hmpos (by norm_num)
        omega
      obtain ⟨hlt, hle⟩ := ih (m / 256) hrec
      have hpos := magLenAux_pos fuel (m / 256)
      constructor
      · rw [pow_succ]
        have := (Nat.div_lt_iff_lt_mul (by norm_num : 0 < 256)).mp hlt
        omega
      · intro _
        have hq : 1 ≤ m / 256 := (Nat.le_div_iff_mul_le (by norm_num : 0 < 256)).mpr (by omega)
        have h1 := hle hq
        have h2 : 256 ^ (magLenAux fuel (m / 256) - 1) * 256 ≤ (m / 256) * 256 :=
          Nat.mul_le_mul_right 256 h1
        have h3 : (m / 256) * 256 ≤ m := by
          have := Nat.mod_add_div m 256
          omega
        have h4 : 256 ^ (magLenAux fuel (m / 256) - 1) * 256
            = 256 ^ (magLenAux fuel (m / 256) + 1 - 1) := by
          have : magLenAux fuel (m / 256) - 1 + 1 = magLenAux fuel (m / 256) := by omega
          rw [Nat.add_sub_cancel, ← this, pow_succ, this]
        omega

theorem magLen_lt (m : Nat) : m < 256 ^ magLen m :=
  (magLenAux_spec m m le_rfl).1

theorem magLen_le (m : Nat) (h : 1 ≤ m) : 256 ^ (magLen m - 1) ≤ m :=
  (magLenAux_spec m m le_rfl).2 h

theorem magLen_pos (m : Nat) : 0 < magLen m :=
  magLenAux_pos m m

theorem natToBEPad_magLen_head (m : Nat) :
    ((natToBEPad m (magLen m)).headD 0).toNat = m / 256 ^ (magLen m - 1) := by
  obtain ⟨k, hk⟩ : ∃ k, magLen m = k + 1 := ⟨magLen m - 1, by have := magLen_pos m; omega⟩
  rw [hk, natToBEPad_succ_cons]
  simp only [List.headD_cons, Nat.add_sub_cancel]
  rw [toNat_ofNat256]
  apply Nat.mod_eq_of_lt
  have hlt := magLen_lt m
  rw [hk, pow_succ, Nat.mul_comm] at hlt
  exact (Nat.div_lt_iff_lt_mul (Nat.pos_pow_of_pos k (by norm_num))).mpr hlt

theorem natToBEPad_magLen_tail (m : Nat) :
    (natToBEPad m (magLen m)).tail = natToBEPad m (magLen m - 1) := by
  obtain ⟨k, hk⟩ : ∃ k, magLen m = k + 1 := ⟨magLen m - 1, by have := magLen_pos m; omega⟩
  rw [hk, natToBEPad_succ_cons]
  simp

theorem pow128_mul (m : Nat) :
    (128 : Nat) * 256 ^ (magLen m - 1) = 2 ^ (8 * magLen m - 1) := by
  have hpos := magLen_pos m
  rw [pow256_eq, show 8 * magLen m - 1 = 7 + 8 * (magLen m - 1) by omega, pow_add]
  norm_num

theorem head_lt_128_iff (m : Nat) :
    m / 256 ^ (magLen m - 1) < 128 ↔ m < 2 ^ (8 * magLen m - 1) := by
  rw [Nat.div_lt_iff_lt_mul (Nat.pos_pow_of_pos _ (by norm_num)), pow128_mul]

theorem div_mod_128_iff (x P : Nat) (hP : 0 < P) :
    (x / P = 128 ∧ x % P = 0) ↔ x = 128 * P := by
  constructor
  · rintro ⟨h1, h2⟩
    have hdm := Nat.div_add_mod x P
    rw [h1, h2] at hdm
    omega
  · intro h
    subst h
    constructor
    · rw [Nat.mul_div_assoc 128 (dvd_refl P), Nat.div_self hP, Nat.mul_one]
    · exact Nat.mul_mod_left 128 P

theorem head_128_tail_zero_iff (m : Nat) :
    (m / 256 ^ (magLen m - 1) = 128 ∧ m % 256 ^ (magLen m - 1) = 0) ↔
      m = 2 ^ (8 * magLen m - 1) := by
  rw [div_mod_128_iff m _ (Nat.pos_pow_of_pos _ (by norm_num)), pow128_mul]

theorem toSignedBytesBE_nonneg_small (v : Int) (hv : 0 ≤ v)
    (h : v.natAbs < 2 ^ (8 * magLen v.natAbs - 1)) :
    toSignedBytesBE v = natToBEPad v.natAbs (magLen v.natAbs) := by
  have hvneg : ¬ v < 0 := not_lt.mpr hv
  have hfirst : ¬ (0x7f <
      ((natToBEPad v.natAbs (magLen v.natAbs)).headD 0).toNat) := by
    rw [natToBEPad_magLen_head]
    have := (head_lt_128_iff v.natAbs).mpr h
    omega
  simp only [toSignedBytesBE]
  rw [if_neg hvneg, if_neg (fun hc => hfirst hc.1)]

theorem toSignedBytesBE_nonneg_big (v : Int) (hv : 0 ≤ v)
    (h : 2 ^ (8 * magLen v.natAbs - 1) ≤ v.natAbs) :
    toSignedBytesBE v = (0 : UInt8) :: natToBEPad v.natAbs (magLen v.natAbs) := by
  have hvneg : ¬ v < 0 := not_lt.mpr hv
  have hfirst : 0x7f < ((natToBEPad v.natAbs (magLen v.natAbs)).headD 0).toNat := by
    rw [natToBEPad_magLen_head]
    have hcontra := (head_lt_128_iff v.natAbs).not.mpr (by omega)
    omega
  simp only [toSignedBytesBE]
  rw [if_neg hvneg, if_pos ⟨hfirst, fun hc => hvneg hc.2.2⟩]

theorem toSignedBytesBE_neg_small (v : Int) (hv : v < 0)
    (h : v.natAbs ≤ 2 ^ (8 * magLen v.natAbs - 1)) :
    toSignedBytesBE v =
      natToBEPad (2 ^ (8 * magLen v.natAbs) - v.natAbs) (magLen v.natAbs) := by
  have hcond : ¬ (0x7f < ((natToBEPad v.natAbs (magLen v.natAbs)).headD 0).toNat ∧
      ¬ (((natToBEPad v.natAbs (magLen v.natAbs)).headD 0).toNat = 0x80 ∧
        (natToBEPad v.natAbs (magLen v.natAbs)).tail.all (fun b => b == 0) ∧ v < 0)) := by
    rintro ⟨h1, h2⟩
    rw [natToBEPad_magLen_head] at h1
    have hge : 2 ^ (8 * magLen v.natAbs - 1) ≤ v.natAbs := by
      have := (head_lt_128_iff v.natAbs).not.mp (by omega)
      omega
    have heq : v.natAbs = 2 ^ (8 * magLen v.natAbs - 1) := by omega
    obtain ⟨hd, hm⟩ := (head_128_tail_zero_iff v.natAbs).mpr heq
    refine h2 ⟨?_, ?_, hv⟩
    · rw [natToBEPad_magLen_head]; exact hd
    · rw [natToBEPad_magLen_tail]
      exact (natToBEPad_all_zero _ _).mpr hm
  simp only [toSignedBytesBE]
  rw [if_pos hv, if_neg hcond, natToBEPad_length]

theorem toSignedBytesBE_neg_big (v : Int) (hv : v < 0)
    (h : 2 ^ (8 * magLen v.natAbs - 1) < v.natAbs) :
    toSignedBytesBE v =
      natToBEPad (2 ^ (8 * (magLen v.natAbs + 1)) - v.natAbs) (magLen v.natAbs + 1) := by
  have hfirst : 0x7f < ((natToBEPad v.natAbs (magLen v.natAbs)).headD 0).toNat := by
    rw [natToBEPad_magLen_head]
    have := (head_lt_128_iff v.natAbs).not.mpr (by omega)
    omega
  have hspec : ¬ (((natToBEPad v.natAbs (magLen v.natAbs)).headD 0).toNat = 0x80 ∧
      (natToBEPad v.natAbs (magLen v.natAbs)).tail.all (fun b => b == 0) ∧ v < 0) := by
    rintro ⟨hd, ht, _⟩
    rw [natToBEPad_magLen_head] at hd
    rw [natToBEPad_magLen_tail] at ht
    have hm := (natToBEPad_all_zero _ _).mp ht
    have := (head_128_tail_zero_iff v.natAbs).mp ⟨hd, hm⟩
    omega
  simp only [toSignedBytesBE]
  rw [if_pos hv, if_pos ⟨hfirst, hspec⟩]
  simp [natToBEPad_length]

theorem twosDecode_natToBEPad_of_lt (x n : Nat) (hx : x < 2 ^ (8 * n - 1)) :
    twosDecode (natToBEPad x n) = (x : Int) := by
  unfold twosDecode
  rw [natToBEPad_length, bytesToNat_natToBEPad]
  have hxlt : x < 256 ^ n := by
    rw [pow256_eq]
    exact hx.trans_le (Nat.pow_le_pow_right (by norm_num) (by omega))
  rw [Nat.mod_eq_of_lt hxlt, if_pos hx]

theorem twosDecode_natToBEPad_of_ge (x n : Nat)
    (hlo : 2 ^ (8 * n - 1) ≤ x) (hhi : x < 2 ^ (8 * n)) :
    twosDecode (natToBEPad x n) = (x : Int) - (2 : Int) ^ (8 * n) := by
  unfold twosDecode
  rw [natToBEPad_length, bytesToNat_natToBEPad, pow256_eq, Nat.mod_eq_of_lt hhi,
    if_neg (by omega)]

theorem twosDecode_toSignedBytesBE (v : Int) : twosDecode (toSignedBytesBE v) = v := by
  by_cases hv : v < 0
  · have hm1 : 1 ≤ v.natAbs := Int.natAbs_pos.mpr (by omega)
    have hcast : ((v.natAbs : Int)) = -v := by omega
    have hnpos := magLen_pos v.natAbs
    have hmlt : v.natAbs < 2 ^ (8 * magLen v.natAbs) := by
      have := magLen_lt v.natAbs
      rwa [pow256_eq] at this
    by_cases hbig : 2 ^ (8 * magLen v.natAbs - 1) < v.natAbs
    · rw [toSignedBytesBE_neg_big v hv hbig]
      have e1 : (2 : Nat) ^ (8 * (magLen v.natAbs + 1))
          = 2 ^ (8 * magLen v.natAbs) * 256 := by
        rw [show 8 * (magLen v.natAbs + 1) = 8 * magLen v.natAbs + 8 by ring, pow_add]
        norm_num
      have e2 : (2 : Nat) ^ (8 * (magLen v.natAbs + 1) - 1)
          = 2 ^ (8 * magLen v.natAbs) * 128 := by
        rw [show 8 * (magLen v.natAbs + 1) - 1 = 8 * magLen v.natAbs + 7 by omega, pow_add]
        norm_num
      rw [twosDecode_natToBEPad_of_ge _ (magLen v.natAbs + 1) (by omega) (by omega)]
      have hsub : v.natAbs ≤ 2 ^ (8 * (magLen v.natAbs + 1)) := by omega
      rw [Nat.cast_sub hsub, hcast]
      push_cast
      ring
    · push_neg at hbig
      rw [toSignedBytesBE_neg_small v hv hbig]
      have e3 : (2 : Nat) ^ (8 * magLen v.natAbs)
          = 2 ^ (8 * magLen v.natAbs - 1) * 2 := by
        rw [← pow_succ, show 8 * magLen v.natAbs - 1 + 1 = 8 * magLen v.natAbs by omega]
      rw [twosDecode_natToBEPad_of_ge _ (magLen v.natAbs) (by omega) (by omega)]
      have hsub : v.natAbs ≤ 2 ^ (8 * magLen v.natAbs) := by omega
      rw [Nat.cast_sub hsub, hcast]
      push_cast
      ring
  · push_neg at hv
    have hcast : ((v.natAbs : Int)) = v := Int.natAbs_of_nonneg hv
    have hnpos := magLen_pos v.natAbs
    have hmlt : v.natAbs < 256 ^ magLen v.natAbs := magLen_lt v.natAbs
    by_cases hbig : 2 ^ (8 * magLen v.natAbs - 1) ≤ v.natAbs
    · rw [toSignedBytesBE_nonneg_big v hv hbig]
      unfold twosDecode
      rw [List.length_cons, natToBEPad_length, bytesToNat_cons, natToBEPad_length,
        bytesToNat_natToBEPad, Nat.mod_eq_of_lt hmlt]
      have hz : (0 : UInt8).toNat = 0 := rfl
      rw [hz]
      have e4 : (2 : Nat) ^ (8 * (magLen v.natAbs + 1) - 1)
          = 2 ^ (8 * magLen v.natAbs) * 128 := by
        rw [show 8 * (magLen v.natAbs + 1) - 1 = 8 * magLen v.natAbs + 7 by omega, pow_add]
        norm_num
      have hmlt2 : v.natAbs < 2 ^ (8 * magLen v.natAbs) := by
        rwa [pow256_eq] at hmlt
      rw [if_pos (by omega)]
      simpa using hcast
    · push_neg at hbig
      rw [toSignedBytesBE_nonneg_small v hv hbig]
      rw [twosDecode_natToBEPad_of_lt _ _ hbig]
      exact hcast

theorem twosDecode_range (bs : List UInt8) (h : bs ≠ []) :
    -((2 : Int) ^ (8 * bs.length - 1)) ≤ twosDecode bs ∧
      twosDecode bs < (2 : Int) ^ (8 * bs.length - 1) := by
  have hlen : 1 ≤ bs.length := List.length_pos.mpr h
  have hu := bytesToNat_lt bs
  rw [pow256_eq] at hu
  have hsplit : (2 : Nat) ^ (8 * bs.length) = 2 ^ (8 * bs.length - 1) * 2 := by
    rw [← pow_succ, show 8 * bs.length - 1 + 1 = 8 * bs.length by omega]
  simp only [twosDecode]
  split
  · rename_i hlt
    constructor
    · calc -((2 : Int) ^ (8 * bs.length - 1)) ≤ 0 := neg_nonpos.mpr (by positivity)
        _ ≤ (bytesToNat bs : Int) := by positivity
    · calc ((bytesToNat bs : Int)) < ((2 ^ (8 * bs.length - 1) : Nat) : Int) := by
            exact_mod_cast hlt
        _ = (2 : Int) ^ (8 * bs.length - 1) := by push_cast; ring
  · rename_i hge
    push_neg at hge
    have c1 : ((2 ^ (8 * bs.length - 1) : Nat) : Int) = (2 : Int) ^ (8 * bs.length - 1) := by
      push_cast; ring
    have c2 : ((2 ^ (8 * bs.length) : Nat) : Int) = (2 : Int) ^ (8 * bs.length) := by
      push_cast; ring
    have hgeI : (2 : Int) ^ (8 * bs.length - 1) ≤ (bytesToNat bs : Int) := by
      rw [← c1]; exact_mod_cast hge
    have huI : (bytesToNat bs : Int) < (2 : Int) ^ (8 * bs.length) := by
      rw [← c2]; exact_mod_cast hu
    have hsplitI : (2 : Int) ^ (8 * bs.length) = 2 ^ (8 * bs.length - 1) * 2 := by
      exact_mod_cast hsplit
    constructor
    · omega
    · omega

theorem toSignedBytesBE_ne_nil (v : Int) : toSignedBytesBE v ≠ [] := by
  by_cases hv : v < 0
  · by_cases hbig : 2 ^ (8 * magLen v.natAbs - 1) < v.natAbs
    · rw [toSignedBytesBE_neg_big v hv hbig]
      apply List.ne_nil_of_length_pos
      rw [natToBEPad_length]
      omega
    · push_neg at hbig
      rw [toSignedBytesBE_neg_small v hv hbig]
      apply List.ne_nil_of_length_pos
      rw [natToBEPad_length]
      exact magLen_pos v.natAbs
  · push_neg at hv
    by_cases hbig : 2 ^ (8 * magLen v.natAbs - 1) ≤ v.natAbs
    · rw [toSignedBytesBE_nonneg_big v hv hbig]
      exact List.cons_ne_nil _ _
    · push_neg at hbig
      rw [toSignedBytesBE_nonneg_small v hv hbig]
      apply List.ne_nil_of_length_pos
      rw [natToBEPad_length]
      exact magLen_pos v.natAbs

theorem fitsInBytes_toSignedBytesBE (v : Int) :
    fitsInBytes v (toSignedBytesBE v).length := by
  have hne := toSignedBytesBE_ne_nil v
  obtain ⟨h1, h2⟩ := twosDecode_range (toSignedBytesBE v) hne
  rw [twosDecode_toSignedBytesBE] at h1 h2
  exact ⟨List.length_pos.mpr hne, h1, h2⟩

theorem fitsInBytes_mono (v : Int) (a b : Nat) (hab : a ≤ b) (h : fitsInBytes v a) :
    fitsInBytes v b := by
  obtain ⟨hpos, hlo, hhi⟩ := h
  have hpow : (2 : Int) ^ (8 * a - 1) ≤ (2 : Int) ^ (8 * b - 1) :=
    pow_le_pow_right₀ (by norm_num) (by omega)
  exact ⟨by omega, by omega, by omega⟩

theorem fits_cast_pos (v : Int) (len : Nat) (hv : 0 ≤ v)
    (hhi : v < (2 : Int) ^ (8 * len - 1)) : v.natAbs < 2 ^ (8 * len - 1) := by
  have hcast : ((v.natAbs : Int)) = v := Int.natAbs_of_nonneg hv
  have : ((v.natAbs : Int)) < ((2 ^ (8 * len - 1) : Nat) : Int) := by
    rw [hcast]
    calc v < (2 : Int) ^ (8 * len - 1) := hhi
      _ = ((2 ^ (8 * len - 1) : Nat) : Int) := by push_cast; ring
  exact_mod_cast this

theorem fits_cast_neg (v : Int) (len : Nat) (hv : v < 0)
    (hlo : -((2 : Int) ^ (8 * len - 1)) ≤ v) : v.natAbs ≤ 2 ^ (8 * len - 1) := by
  have hcast : ((v.natAbs : Int)) = -v := by omega
  have : ((v.natAbs : Int)) ≤ ((2 ^ (8 * len - 1) : Nat) : Int) := by
    rw [hcast]
    calc -v ≤ (2 : Int) ^ (8 * len - 1) := by omega
      _ = ((2 ^ (8 * len - 1) : Nat) : Int) := by push_cast; ring
  exact_mod_cast this

theorem toSignedBytesBE_length_le (v : Int) (len : Nat) (h : fitsInBytes v len) :
    (toSignedBytesBE v).length ≤ len := by
  obtain ⟨hpos, hlo, hhi⟩ := h
  have hp2 : (1 : Nat) < 2 := by norm_num
  by_cases hv : v < 0
  · have hm1 : 1 ≤ v.natAbs := Int.natAbs_pos.mpr (by omega)
    have hmge := magLen_le v.natAbs hm1
    rw [pow256_eq] at hmge
    have hmle : v.natAbs ≤ 2 ^ (8 * len - 1) := fits_cast_neg v len hv hlo
    by_cases hbig : 2 ^ (8 * magLen v.natAbs - 1) < v.natAbs
    · rw [toSignedBytesBE_neg_big v hv hbig, natToBEPad_length]
      have hexp : 8 * magLen v.natAbs - 1 < 8 * len - 1 :=
        (Nat.pow_lt_pow_iff_right hp2).mp (by omega)
      have := magLen_pos v.natAbs
      omega
    · push_neg at hbig
      rw [toSignedBytesBE_neg_small v hv hbig, natToBEPad_length]
      have hexp : 8 * (magLen v.natAbs - 1) ≤ 8 * len - 1 :=
        (Nat.pow_le_pow_iff_right hp2).mp (by omega)
      have := magLen_pos v.natAbs
      omega
  · push_neg at hv
    have hmlt : v.natAbs < 2 ^ (8 * len - 1) := fits_cast_pos v len hv hhi
    by_cases hbig : 2 ^ (8 * magLen v.natAbs - 1) ≤ v.natAbs
    · rw [toSignedBytesBE_nonneg_big v hv hbig, List.length_cons, natToBEPad_length]
      have hexp : 8 * magLen v.natAbs - 1 < 8 * len - 1 :=
        (Nat.pow_lt_pow_iff_right hp2).mp (by omega)
      have := magLen_pos v.natAbs
      omega
    · push_neg at hbig
      rw [toSignedBytesBE_nonneg_small v hv hbig, natToBEPad_length]
      rcases Nat.eq_zero_or_pos v.natAbs with hz | hm1
      · rw [hz]
        have : magLen 0 = 1 := rfl
        rw [this]
        omega
      · have hmge := magLen_le v.natAbs hm1
        rw [pow256_eq] at hmge
        have hexp : 8 * (magLen v.natAbs - 1) < 8 * len - 1 :=
          (Nat.pow_lt_pow_iff_right hp2).mp (by omega)
        have := magLen_pos v.natAbs
        omega

theorem not_fits_length_gt (v : Int) (len : Nat) (h : ¬ fitsInBytes v len) :
    len < (toSignedBytesBE v).length := by
  by_contra hle
  push_neg at hle
  exact h (fitsInBytes_mono v _ len hle (fitsInBytes_toSignedBytesBE v))

theorem twosDecode_cons_zero (bs : List UInt8) (hne : bs ≠ []) (h : 0 ≤ twosDecode bs) :
    twosDecode ((0x00 : UInt8) :: bs) = twosDecode bs := by
  have hlen : 1 ≤ bs.length := List.length_pos.mpr hne
  have hu := bytesToNat_lt bs
  rw [pow256_eq] at hu
  have hcond : bytesToNat bs < 2 ^ (8 * bs.length - 1) := by
    by_contra hge
    push_neg at hge
    simp only [twosDecode] at h
    rw [if_neg (by omega)] at h
    have huI : ((bytesToNat bs : Nat) : Int) < ((2 ^ (8 * bs.length) : Nat) : Int) := by
      exact_mod_cast hu
    have hpow : ((2 ^ (8 * bs.length) : Nat) : Int) = (2 : Int) ^ (8 * bs.length) := by
      push_cast; ring
    omega
  simp only [twosDecode, List.length_cons, bytesToNat_cons]
  have hz : (0x00 : UInt8).toNat = 0 := rfl
  rw [hz]
  have e : (2 : Nat) ^ (8 * (bs.length + 1) - 1) = 2 ^ (8 * bs.length) * 128 := by
    rw [show 8 * (bs.length + 1) - 1 = 8 * bs.length + 7 by omega, pow_add]
    norm_num
  have hsp : (2 : Nat) ^ (8 * bs.length) = 2 ^ (8 * bs.length - 1) * 2 := by
    rw [← pow_succ, show 8 * bs.length - 1 + 1 = 8 * bs.length by omega]
  rw [if_pos (by omega), if_pos hcond]
  norm_num

theorem twosDecode_cons_ff (bs : List UInt8) (hne : bs ≠ []) (h : twosDecode bs < 0) :
    twosDecode ((0xFF : UInt8) :: bs) = twosDecode bs := by
  have hlen : 1 ≤ bs.length := List.length_pos.mpr hne
  have hu := bytesToNat_lt bs
  rw [pow256_eq] at hu
  have hcond : 2 ^ (8 * bs.length - 1) ≤ bytesToNat bs := by
    by_contra hlt
    push_neg at hlt
    simp only [twosDecode] at h
    rw [if_pos hlt] at h
    omega
  simp only [twosDecode, List.length_cons, bytesToNat_cons]
  have hff : (0xFF : UInt8).toNat = 255 := rfl
  rw [hff, pow256_eq]
  have e1 : (2 : Nat) ^ (8 * (bs.length + 1) - 1) = 2 ^ (8 * bs.length) * 128 := by
    rw [show 8 * (bs.length + 1) - 1 = 8 * bs.length + 7 by omega, pow_add]
    norm_num
  have e2 : (2 : Nat) ^ (8 * (bs.length + 1)) = 2 ^ (8 * bs.length) * 256 := by
    rw [show 8 * (bs.length + 1) = 8 * bs.length + 8 by ring, pow_add]
    norm_num
  rw [if_neg (by omega), if_neg (by omega)]
  have c0 : ((255 * 2 ^ (8 * bs.length) + bytesToNat bs : Nat) : Int)
      = 255 * (2 : Int) ^ (8 * bs.length) + (bytesToNat bs : Int) := by
    push_cast; ring
  have c1 : (2 : Int) ^ (8 * (bs.length + 1)) = (2 : Int) ^ (8 * bs.length) * 256 := by
    exact_mod_cast e2
  rw [c0, c1]
  ring

theorem twosDecode_replicate_zero (k : Nat) (bs : List UInt8) (hne : bs ≠ [])
    (h : 0 ≤ twosDecode bs) :
    twosDecode (List.replicate k (0x00 : UInt8) ++ bs) = twosDecode bs := by
  induction k with
  | zero => simp
  | succ k ih =>
    rw [List.replicate_succ, List.cons_append]
    have hne' : List.replicate k (0x00 : UInt8) ++ bs ≠ [] := by
      simp [hne]
    rw [twosDecode_cons_zero _ hne' (by rw [ih]; exact h), ih]

theorem twosDecode_replicate_ff (k : Nat) (bs : List UInt8) (hne : bs ≠ [])
    (h : twosDecode bs < 0) :
    twosDecode (List.replicate k (0xFF : UInt8) ++ bs) = twosDecode bs := by
  induction k with
  | zero => simp
  | succ k ih =>
    rw [List.replicate_succ, List.cons_append]
    have hne' : List.replicate k (0xFF : UInt8) ++ bs ≠ [] := by
      simp [hne]
    rw [twosDecode_cons_ff _ hne' (by rw [ih]; exact h), ih]

theorem sign_byte_eq (v : Int) :
    (0xFF : UInt8) * (if v < 0 then 1 else 0) = if v < 0 then (0xFF : UInt8) else 0x00 := by
  by_cases hv : v < 0 <;> simp [hv]

theorem to_sign_extended_ok_eq (d : Decimal) (len : Nat)
    (hle : (toSignedBytesBE d.value).length ≤ len) :
    to_sign_extended_bytes_with_len d len =
      .ok (List.replicate (len - (toSignedBytesBE d.value).length)
            (if d.value < 0 then (0xFF : UInt8) else 0x00) ++ toSignedBytesBE d.value) := by
  simp only [to_sign_extended_bytes_with_len]
  rw [if_pos hle, sign_byte_eq]

/-! ## Decimal claims -/

/-- Claim C1 evaluation at the failing input: with a scale difference of
20 the `u64` power wraps (10 to the 20th reduced mod 2 to the 64th is not
10 to the 20th), so `decimalEq` answers false on a pair that exact
arbitrary-precision normalization — as the spec demands — makes equal;
the non-overflowing cross-scale example from the spec still works. -/
theorem decimalEq_overflow_at_scale_diff_20 :
    decimalEq ⟨10 ^ 20, 21, 20⟩ ⟨1, 1, 0⟩ = false ∧
    decimalEqSpec ⟨10 ^ 20, 21, 20⟩ ⟨1, 1, 0⟩ = true ∧
    pow10u64 20 ≠ 10 ^ 20 ∧
    decimalEq ⟨123, 3, 1⟩ ⟨1230, 4, 2⟩ = true := by
  refine ⟨by decide, by decide, by decide, by decide⟩

/-- Claim C4: whenever the requested length can represent the unscaled
value in two's complement (it is at least the minimal byte length), the
conversion succeeds, returning exactly `len` bytes: sign padding (0xFF
for a negative value, 0x00 otherwise) followed by the minimal signed
big-endian representation in the trailing positions. -/
theorem to_sign_extended_bytes_ok (d : Decimal) (len : Nat)
    (h : fitsInBytes d.value len) :
    to_sign_extended_bytes_with_len d len =
      .ok (List.replicate (len - (toSignedBytesBE d.value).length)
            (if d.value < 0 then (0xFF : UInt8) else 0x00) ++ toSignedBytesBE d.value) ∧
    (List.replicate (len - (toSignedBytesBE d.value).length)
        (if d.value < 0 then (0xFF : UInt8) else 0x00) ++ toSignedBytesBE d.value).length
      = len := by
  have hle := toSignedBytesBE_length_le d.value len h
  refine ⟨to_sign_extended_ok_eq d len hle, ?_⟩
  rw [List.length_append, List.length_replicate]
  omega

/-- Witness for C4: the spec's two examples, minus one at length two and
one hundred twenty-seven at length one. -/
theorem to_sign_extended_bytes_ok_witness :
    to_sign_extended_bytes_with_len ⟨-1, 1, 0⟩ 2 = .ok [0xFF, 0xFF] ∧
    to_sign_extended_bytes_with_len ⟨127, 3, 0⟩ 1 = .ok [0x7F] :=
  ⟨((to_sign_extended_bytes_ok ⟨-1, 1, 0⟩ 2 (by decide)).1).trans (by rfl),
   ((to_sign_extended_bytes_ok ⟨127, 3, 0⟩ 1 (by decide)).1).trans (by rfl)⟩

/-- Claim C5: whenever the requested length cannot represent the unscaled
value (the minimal representation is strictly longer), the conversion
fails with SignExtend carrying the requested length and the needed
minimal byte length, returning no bytes. -/
theorem to_sign_extended_bytes_err (d : Decimal) (len : Nat)
    (h : ¬ fitsInBytes d.value len) :
    to_sign_extended_bytes_with_len d len =
      .error (.SignExtend len (toSignedBytesBE d.value).length) ∧
    len < (toSignedBytesBE d.value).length := by
  have hlt := not_fits_length_gt d.value len h
  refine ⟨?_, hlt⟩
  simp only [to_sign_extended_bytes_with_len]
  rw [if_neg (by omega)]

/-- Witness for C5: the spec's example, one hundred twenty-eight at
length one fails with SignExtend requested one, needed two. -/
theorem to_sign_extended_bytes_err_witness :
    to_sign_extended_bytes_with_len ⟨128, 3, 0⟩ 1 = .error (.SignExtend 1 2) :=
  ((to_sign_extended_bytes_err ⟨128, 3, 0⟩ 1 (by decide)).1).trans (by rfl)

/-- Claim C9: for every representable requested length, decoding the
returned bytes as a big-endian two's-complement signed integer recovers
exactly the original unscaled value. -/
theorem sign_extend_roundtrip (d : Decimal) (len : Nat) (h : fitsInBytes d.value len) :
    ∃ bs, to_sign_extended_bytes_with_len d len = .ok bs ∧ bs.length = len ∧
      twosDecode bs = d.value := by
  have hle := toSignedBytesBE_length_le d.value len h
  have hne := toSignedBytesBE_ne_nil d.value
  have hdec := twosDecode_toSignedBytesBE d.value
  refine ⟨_, to_sign_extended_ok_eq d len hle, ?_, ?_⟩
  · rw [List.length_append, List.length_replicate]
    omega
  · by_cases hv : d.value < 0
    · rw [if_pos hv]
      rw [twosDecode_replicate_ff _ _ hne (by rw [hdec]; exact hv), hdec]
    · rw [if_neg hv]
      push_neg at hv
      rw [twosDecode_replicate_zero _ _ hne (by rw [hdec]; exact hv), hdec]

/-- Witness for C9: minus three hundred sign-extended to three bytes
decodes back to minus three hundred. -/
theorem sign_extend_roundtrip_witness :
    ∃ bs, to_sign_extended_bytes_with_len ⟨-300, 3, 0⟩ 3 = .ok bs ∧ bs.length = 3 ∧
      twosDecode bs = -300 :=
  sign_extend_roundtrip ⟨-300, 3, 0⟩ 3 (by decide)

end AvroRS
